import Mathlib

/-!
Verification of the `gtg` ("Go task group") library against its
natural-language specification.

The development shallowly embeds the relevant parts of the source:

* Go errors built by `fmt.Errorf` (with the `%w` wrapping verb) become the
  inductive `GoErr`; `errors.Is` becomes `GoErr.is`.
* `task.run` / `task.finalize` (gtg_internal.go) become `taskResult` for the
  final recorded error, and `runTrace` for the sequence of result-field
  writes and completion-channel closes they perform.
* `taskGroup.Task` (gtg_internal.go) becomes `groupTask`, a transition on an
  explicit registry state.  The Go method holds the group mutex for its whole
  body, so any concurrent execution is equivalent to some sequence of atomic
  calls; `runCalls` quantifies over all such sequences.
* `waitGroup` (gtg_internal.go) becomes `WaitGroupS` (the parallel
  tasks/cases slices) and `wgWaitN` (the `reflect.Select` loop).  A watched
  task is abstracted to its completion time (`none` = never completes) and
  its recorded result; `reflect.Select` picks whichever pending channel
  closes first.
* `Opt`, `Ser`, `Par` (the public file) become `optF`, `serF`, `parF` over an
  environment assigning each task function the outcome of its (deduplicated)
  task — the group runs one task per function identity, so `Wait(task, fun)`
  observes a single fixed outcome per function.
* `TaskFunc` naming and `Choose` (the public file) become `TaskFuncV`,
  `addF`, `dedup`, `Choose`, executable down to the error message strings.
-/

/-! ## Go errors -/

/-- Model of a Go error value: either a leaf message (`fmt.Errorf` without
`%w`) or a wrapping error (`fmt.Errorf` whose format ends in `: %w`),
carrying the formatted prefix text and the wrapped cause. -/
inductive GoErr : Type where
  | base : String → GoErr
  | wrap : String → GoErr → GoErr
deriving DecidableEq

/-- The `Error()` string of a modelled Go error. -/
def GoErr.msg : GoErr → String
  | .base s => s
  | .wrap s e => s ++ GoErr.msg e

/-- Model of `errors.Is`: the target is the error itself or somewhere in its
`%w` unwrap chain. -/
def GoErr.is (e target : GoErr) : Bool :=
  decide (e = target) ||
    match e with
    | .base _ => false
    | .wrap _ c => GoErr.is c target

/-- Go `%q` formatting of a short string (no escaping needed for the
identifier-like names used here). -/
def goQuote (s : String) : String := "\"" ++ s ++ "\""

/-! ## Substring containment (executable, no library string search) -/

/-- `startsWith hay pat` holds when `pat` is a leading segment of `hay`. -/
def startsWith : List Char → List Char → Bool
  | _, [] => true
  | [], _ :: _ => false
  | h :: hs, p :: ps => h == p && startsWith hs ps

/-- `containsSeg hay pat` holds when `pat` occurs contiguously in `hay`. -/
def containsSeg : List Char → List Char → Bool
  | [], pat => startsWith [] pat
  | h :: hs, pat => startsWith (h :: hs) pat || containsSeg hs pat

/-- String-level substring test. -/
def strContains (hay pat : String) : Bool := containsSeg hay.toList pat.toList

theorem startsWith_iff (hay pat : List Char) :
    startsWith hay pat = true ↔ ∃ rest, hay = pat ++ rest := by
  induction pat generalizing hay with
  | nil => simp [startsWith]
  | cons p ps ih =>
    cases hay with
    | nil => simp [startsWith]
    | cons h hs =>
      simp only [startsWith, Bool.and_eq_true, beq_iff_eq, ih, List.cons_append,
        List.cons.injEq]
      constructor
      · rintro ⟨rfl, rest, rfl⟩; exact ⟨rest, rfl, rfl⟩
      · rintro ⟨rest, rfl, rfl⟩; exact ⟨rfl, rest, rfl⟩

theorem containsSeg_iff (hay pat : List Char) :
    containsSeg hay pat = true ↔ ∃ a b, hay = a ++ pat ++ b := by
  induction hay with
  | nil =>
    simp only [containsSeg, startsWith_iff]
    constructor
    · rintro ⟨rest, h⟩
      exact ⟨[], rest, by simpa using h⟩
    · rintro ⟨a, b, h⟩
      refine ⟨b, ?_⟩
      rcases List.append_eq_nil.mp h.symm with ⟨h1, h2⟩
      rcases List.append_eq_nil.mp h1 with ⟨rfl, rfl⟩
      simpa using h.symm ▸ rfl
  | cons h hs ih =>
    simp only [containsSeg, Bool.or_eq_true, startsWith_iff, ih]
    constructor
    · rintro (⟨rest, heq⟩ | ⟨a, b, heq⟩)
      · exact ⟨[], rest, by simpa using heq⟩
      · exact ⟨h :: a, b, by simp [heq]⟩
    · rintro ⟨a, b, heq⟩
      cases a with
      | nil => exact Or.inl ⟨b, by simpa using heq⟩
      | cons a0 as =>
        right
        refine ⟨as, b, ?_⟩
        simp only [List.cons_append, List.cons.injEq] at heq
        exact heq.2

/-- `errors.Is e e` holds. -/
theorem GoErr.is_self (e : GoErr) : GoErr.is e e = true := by
  cases e <;> simp [GoErr.is]

/-- `errors.Is` reaches the wrapped cause one level down. -/
theorem GoErr.is_wrap_cause (s : String) (c : GoErr) : GoErr.is (.wrap s c) c = true := by
  rw [GoErr.is]
  simp [GoErr.is_self]

theorem strContains_parts (a p b : String) : strContains (a ++ p ++ b) p = true := by
  rw [strContains, containsSeg_iff]
  exact ⟨a.toList, b.toList, rfl⟩

/-- Containment is preserved when the haystack is extended on both sides. -/
theorem strContains_extend (x inner y pat : String)
    (h : strContains inner pat = true) : strContains (x ++ inner ++ y) pat = true := by
  rw [strContains, containsSeg_iff] at h ⊢
  rcases h with ⟨a, b, hab⟩
  refine ⟨x.toList ++ a, b ++ y.toList, ?_⟩
  have : (x ++ inner ++ y).toList = x.toList ++ inner.toList ++ y.toList := rfl
  rw [this, hab]
  simp

/-! ## Task execution: `task.run` and `task.finalize`

`task.run` invokes the task function.  It either returns with an `error`
value (possibly nil) — in which case `run` stores that value in `self.err`
before the deferred `finalize` — or terminates by panicking with some
payload, in which case `self.err` is still nil when `finalize` runs and
`recover()` yields the payload.  A panic payload is a non-nil interface
value: either an `error` or some other value, rendered by `%#v`
(which we model by the rendering string itself). -/

/-- Payload of a Go panic: an error value, or a non-error value modelled by
its `%#v` rendering. -/
inductive Payload : Type where
  | perr : GoErr → Payload
  | pval : String → Payload
deriving DecidableEq

/-- How a task function terminates: normal return carrying an error value
(possibly nil = `none`), or a panic carrying a payload. -/
inductive Outcome : Type where
  | ret : Option GoErr → Outcome
  | panicked : Payload → Outcome
deriving DecidableEq

/-- The wrapping applied by `finalize` to a normally-returned non-nil error:
`fmt.Errorf("task %q finished with error: %w", name, err)`. -/
def finishedWrap (name : String) (e : GoErr) : GoErr :=
  .wrap ("task " ++ goQuote name ++ " finished with error: ") e

/-- The wrapping applied by `finalize` to a recovered error payload:
`fmt.Errorf("task %q panicked with error: %w", name, err)`. -/
def panickedWrap (name : String) (e : GoErr) : GoErr :=
  .wrap ("task " ++ goQuote name ++ " panicked with error: ") e

/-- The error synthesized by `finalize` for a recovered non-error payload:
`fmt.Errorf("task %q panicked with non-error value %#v", name, val)`. -/
def panickedVal (name : String) (v : String) : GoErr :=
  .base ("task " ++ goQuote name ++ " panicked with non-error value " ++ v)

/-- `task.finalize`, as a function of the `self.err` field on entry and of
what `recover()` would return (`none` when the function returned normally):
the value of `self.err` after `finalize`'s body runs. -/
def finalizeErr (name : String) (err : Option GoErr) (recovered : Option Payload) :
    Option GoErr :=
  match err with
  | some e => some (finishedWrap name e)
  | none =>
    match recovered with
    | some (.perr e) => some (panickedWrap name e)
    | some (.pval v) => some (panickedVal name v)
    | none => none

/-- The task's recorded result (`task.Err()` after completion): `run` stores
the returned error, then the deferred `finalize` rewrites it; on panic the
stored error is still nil and `finalize` consumes the recovered payload. -/
def taskResult (name : String) (out : Outcome) : Option GoErr :=
  match out with
  | .ret e => finalizeErr name e none
  | .panicked p => finalizeErr name none (some p)

/-! ## Write/close trace of one task execution (for the temporal claim) -/

/-- Observable actions of `run`/`finalize` on the task's shared state: a
write to the `err` field, or the close of the `done` channel. -/
inductive TEvent : Type where
  | wr : Option GoErr → TEvent
  | closeDone : TEvent
deriving DecidableEq

/-- Trace of `task.finalize`: its body performs the (at most one) rewrite of
`self.err`, and the deferred `close(self.done)` fires last. -/
def finalizeTrace (name : String) (err : Option GoErr) (recovered : Option Payload) :
    List TEvent :=
  (match err, recovered with
   | some e, _ => [TEvent.wr (some (finishedWrap name e))]
   | none, some p => [TEvent.wr (finalizeErr name none (some p))]
   | none, none => []) ++ [TEvent.closeDone]

/-- Trace of `task.run`: on normal return the function's error value is
stored in `self.err` (even when nil), then the deferred `finalize` runs; on
panic the store is skipped and `finalize` recovers the payload. -/
def runTrace (name : String) (out : Outcome) : List TEvent :=
  match out with
  | .ret e => TEvent.wr e :: finalizeTrace name e none
  | .panicked p => finalizeTrace name none (some p)

/-- The sequence of values written to the `err` field, in order. -/
def writesOf (tr : List TEvent) : List (Option GoErr) :=
  tr.filterMap fun ev => match ev with | .wr e => some e | .closeDone => none

/-- How many times the `done` channel is closed in a trace. -/
def closeCount (tr : List TEvent) : Nat :=
  (tr.filter fun ev => match ev with | .closeDone => true | _ => false).length

/-! ## Claims C2, C3, C4 -/

/-- Claim C2, counterexample: a task function named `F` that returns the
non-nil error `boom` does not get exactly that error as its recorded
result — `finalize` replaces it with a wrapping error annotated with the
task name. -/
theorem C2_result_counterexample :
    taskResult "F" (Outcome.ret (some (GoErr.base "boom"))) ≠ some (GoErr.base "boom")
      ∧ taskResult "F" (Outcome.ret (some (GoErr.base "boom")))
          = some (finishedWrap "F" (GoErr.base "boom")) := by
  constructor
  · decide
  · rfl

/-- Claim C2 (amended): for every task function that returns normally, a nil
return yields a nil result, and a non-nil return `e` yields a result that is
a non-nil error wrapping `e` (so `errors.Is` reaches `e`) whose message
references the task's short name. -/
theorem C2_normal_return_result (name : String) (e : GoErr) :
    taskResult name (Outcome.ret none) = none
      ∧ ∃ w, taskResult name (Outcome.ret (some e)) = some w
          ∧ GoErr.is w e = true
          ∧ strContains (GoErr.msg w) name = true := by
  refine ⟨rfl, finishedWrap name e, rfl, GoErr.is_wrap_cause _ e, ?_⟩
  · show strContains (("task " ++ goQuote name ++ " finished with error: ") ++ GoErr.msg e)
        name = true
    have h : strContains (goQuote name) name = true := strContains_parts "\"" name "\""
    have := strContains_extend "task " (goQuote name)
      (" finished with error: " ++ GoErr.msg e) name h
    simpa [String.append_assoc] using this

/-- Claim C3: a task function that panics with payload `X` yields a non-nil
result referencing the task's short name; an error payload is preserved as
the wrapped cause (`errors.Is` reaches it), a non-error payload's rendering
is captured in the error text; the panic is consumed by `finalize` (the
result is always `some`), never escaping or vanishing. -/
theorem C3_panic_result (name v : String) (e : GoErr) :
    (∃ w, taskResult name (Outcome.panicked (Payload.perr e)) = some w
        ∧ GoErr.is w e = true
        ∧ strContains (GoErr.msg w) name = true)
      ∧ ∃ w, taskResult name (Outcome.panicked (Payload.pval v)) = some w
          ∧ strContains (GoErr.msg w) name = true
          ∧ strContains (GoErr.msg w) v = true := by
  refine ⟨⟨panickedWrap name e, rfl, GoErr.is_wrap_cause _ e, ?_⟩, panickedVal name v, rfl, ?_, ?_⟩
  · show strContains (("task " ++ goQuote name ++ " panicked with error: ") ++ GoErr.msg e)
        name = true
    have h : strContains (goQuote name) name = true := strContains_parts "\"" name "\""
    have := strContains_extend "task " (goQuote name)
      (" panicked with error: " ++ GoErr.msg e) name h
    simpa [String.append_assoc] using this
  · show strContains ("task " ++ goQuote name ++ " panicked with non-error value " ++ v)
        name = true
    have h : strContains (goQuote name) name = true := strContains_parts "\"" name "\""
    have := strContains_extend "task " (goQuote name)
      (" panicked with non-error value " ++ v) name h
    simpa [String.append_assoc] using this
  · show strContains ("task " ++ goQuote name ++ " panicked with non-error value " ++ v)
        v = true
    have := strContains_parts ("task " ++ goQuote name ++ " panicked with non-error value ")
      v ""
    simpa using this

/-- Claim C4, counterexample: when the task function returns a non-nil
error, the `err` field is written twice (once by `run` with the raw error,
once by `finalize` with the wrapped error), so "exactly one write to the
result field" fails. -/
theorem C4_write_once_counterexample :
    (writesOf (runTrace "F" (Outcome.ret (some (GoErr.base "x"))))).length = 2
      ∧ (writesOf (runTrace "F" (Outcome.ret (some (GoErr.base "x"))))).length ≠ 1 := by
  constructor <;> decide

/-- Claim C4 (amended): in every execution, exactly one close of the
completion signal occurs and it is the final action; every event before it
is a write to the result field; the result is written once when the
function returns nil or panics and twice when it returns a non-nil error
(the raw error, then its wrapped form); hence no write follows the close,
and the value observed after the signal fires is the last written one — the
task's final result. -/
theorem C4_single_close_final_result (name : String) (out : Outcome) :
    ∃ ws, runTrace name out = ws ++ [TEvent.closeDone]
      ∧ (∀ ev ∈ ws, ∃ e, ev = TEvent.wr e)
      ∧ closeCount (runTrace name out) = 1
      ∧ (writesOf (runTrace name out)).length
          = (match out with | Outcome.ret (some _) => 2 | _ => 1)
      ∧ (writesOf (runTrace name out)).getLast? = some (taskResult name out) := by
  rcases out with e | p
  · rcases e with _ | e
    · exact ⟨[TEvent.wr none], rfl, by simp, rfl, rfl, rfl⟩
    · refine ⟨[TEvent.wr (some e), TEvent.wr (some (finishedWrap name e))], rfl, ?_, rfl, rfl, rfl⟩
      intro ev hev
      simp only [List.mem_cons, List.not_mem_nil, or_false] at hev
      rcases hev with rfl | rfl
      · exact ⟨some e, rfl⟩
      · exact ⟨some (finishedWrap name e), rfl⟩
  · rcases p with e | v
    · exact ⟨[TEvent.wr (some (panickedWrap name e))], rfl, by simp, rfl, rfl, rfl⟩
    · exact ⟨[TEvent.wr (some (panickedVal name v))], rfl, by simp, rfl, rfl, rfl⟩

/-! ## The task group registry: `taskGroup.Task`

The Go method locks `self.Mutex` for its entire body, so concurrent calls
linearize into a sequence of atomic calls; `runCalls` below executes any
such sequence.  Task functions are identified by their `id()` (a `uintptr`,
modelled as `Nat`); tasks are identified by the order of their creation.
The trace of registry insertions and goroutine launches records that a
created task is stored (`insert`) before `go created.run()` (`launch`). -/

/-- Registry/launch events emitted by `taskGroup.Task`. -/
inductive GroupEvent : Type where
  | insert : Nat → Nat → GroupEvent
  | launch : Nat → GroupEvent
deriving DecidableEq

/-- State of a `taskGroup`: the key-to-task registry (`tasks map[uintptr]*task`,
as an association list with unique keys), a fresh-task counter, and the
emitted event trace. -/
structure GroupState : Type where
  registry : List (Nat × Nat)
  nextId : Nat
  events : List GroupEvent
deriving DecidableEq

/-- A fresh group (`taskGroup` zero value: empty registry). -/
def initGroup : GroupState := ⟨[], 0, []⟩

/-- Map lookup `self.tasks[id]`. -/
def lookupTask : List (Nat × Nat) → Nat → Option Nat
  | [], _ => none
  | (k, t) :: rest, key => if k == key then some t else lookupTask rest key

/-- One atomic call of `taskGroup.Task`: under the lock, look the key up; on
a hit return the existing task unchanged; on a miss create a task, store it
in the registry, and only then launch its `run()` goroutine. -/
def groupTask (s : GroupState) (key : Nat) : Nat × GroupState :=
  match lookupTask s.registry key with
  | some t => (t, s)
  | none =>
    (s.nextId,
      ⟨(key, s.nextId) :: s.registry, s.nextId + 1,
        s.events ++ [GroupEvent.insert key s.nextId, GroupEvent.launch s.nextId]⟩)

/-- A sequence of `taskGroup.Task` calls (the linearization of any number of
concurrent callers), returning the task each call returned. -/
def runCalls (s : GroupState) : List Nat → List Nat × GroupState
  | [] => ([], s)
  | k :: ks =>
    let r := groupTask s k
    let rest := runCalls r.2 ks
    (r.1 :: rest.1, rest.2)

/-- Number of registry insertions recorded for a given key. -/
def insCount (evs : List GroupEvent) (key : Nat) : Nat :=
  (evs.filter fun ev => match ev with | .insert k _ => k == key | _ => false).length

/-- Number of `run()` launches recorded for a given task. -/
def launchCount (evs : List GroupEvent) (t : Nat) : Nat :=
  (evs.filter fun ev => match ev with | .launch t2 => t2 == t | _ => false).length

theorem lookupTask_none_iff (reg : List (Nat × Nat)) (key : Nat) :
    lookupTask reg key = none ↔ key ∉ reg.map Prod.fst := by
  induction reg with
  | nil => simp [lookupTask]
  | cons p rest ih =>
    obtain ⟨k, t⟩ := p
    by_cases h : k = key
    · subst h
      simp [lookupTask]
    · simp only [lookupTask, beq_iff_eq, if_neg h, ih, List.map_cons, List.mem_cons]
      constructor
      · rintro hn (rfl | hm)
        · exact h rfl
        · exact hn hm
      · intro hn hm
        exact hn (Or.inr hm)

/-- After a call with `key`, the registry maps `key` to the returned task. -/
theorem groupTask_lookup_self (s : GroupState) (key : Nat) :
    lookupTask (groupTask s key).2.registry key = some (groupTask s key).1 := by
  unfold groupTask
  cases h : lookupTask s.registry key with
  | some t => simp [h]
  | none => simp [lookupTask]

/-- A call never changes an existing registry binding. -/
theorem groupTask_mono (s : GroupState) (key key2 : Nat) (t : Nat)
    (h : lookupTask s.registry key = some t) :
    lookupTask (groupTask s key2).2.registry key = some t := by
  unfold groupTask
  cases h2 : lookupTask s.registry key2 with
  | some t2 => simpa
  | none =>
    simp only [lookupTask]
    have hne : key2 ≠ key := by
      intro he
      rw [he, h] at h2
      cases h2
    simpa [beq_iff_eq, hne] using h

/-- A whole call sequence never changes an existing registry binding. -/
theorem runCalls_mono (ks : List Nat) (s : GroupState) (key t : Nat)
    (h : lookupTask s.registry key = some t) :
    lookupTask (runCalls s ks).2.registry key = some t := by
  induction ks generalizing s with
  | nil => exact h
  | cons k rest ih =>
    simp only [runCalls]
    exact ih _ (groupTask_mono s key k t h)

/-- Well-formedness invariant tying the trace and the registry together: an
unregistered key has no insertion; every key is inserted at most once; every
task is launched at most once; tasks at or above the fresh counter have not
been launched; registry keys are pairwise distinct. -/
def GroupWF (s : GroupState) : Prop :=
  (∀ key, lookupTask s.registry key = none → insCount s.events key = 0)
    ∧ (∀ key, insCount s.events key ≤ 1)
    ∧ (∀ t, launchCount s.events t ≤ 1)
    ∧ (∀ t, s.nextId ≤ t → launchCount s.events t = 0)
    ∧ (s.registry.map Prod.fst).Nodup

theorem initGroup_wf : GroupWF initGroup := by
  refine ⟨?_, ?_, ?_, ?_, ?_⟩ <;> simp [initGroup, insCount, launchCount, lookupTask]

theorem groupTask_wf (s : GroupState) (key : Nat) (h : GroupWF s) :
    GroupWF (groupTask s key).2 := by
  obtain ⟨h1, h2, h3, h4, h5⟩ := h
  unfold groupTask
  cases hl : lookupTask s.registry key with
  | some t => exact ⟨h1, h2, h3, h4, h5⟩
  | none =>
    simp only
    refine ⟨?_, ?_, ?_, ?_, ?_⟩
    · intro k2 hk2
      simp only [lookupTask] at hk2
      by_cases he : key = k2
      · simp [he] at hk2
      · simp only [beq_iff_eq, if_neg he] at hk2
        have := h1 k2 hk2
        simp only [insCount, List.filter_append, List.length_append] at *
        rw [this]
        simp [he]
    · intro k2
      by_cases he : key = k2
      · subst he
        have := h1 key hl
        simp only [insCount, List.filter_append, List.length_append] at *
        rw [this]
        simp
      · have := h2 k2
        simp only [insCount, List.filter_append, List.length_append] at *
        simpa [he] using this
    · intro t
      by_cases he : s.nextId = t
      · subst he
        have := h4 s.nextId le_rfl
        simp only [launchCount, List.filter_append, List.length_append] at *
        rw [this]
        simp
      · have := h3 t
        simp only [launchCount, List.filter_append, List.length_append] at *
        simpa [he] using this
    · intro t ht
      have ht2 : s.nextId + 1 ≤ t := ht
      have hne : s.nextId ≠ t := by omega
      have := h4 t (by omega)
      simp only [launchCount, List.filter_append, List.length_append] at *
      rw [this]
      simp [hne]
    · simp only [List.map_cons, List.nodup_cons]
      exact ⟨(lookupTask_none_iff s.registry key).mp hl, h5⟩

theorem runCalls_wf (ks : List Nat) (s : GroupState) (h : GroupWF s) :
    GroupWF (runCalls s ks).2 := by
  induction ks generalizing s with
  | nil => exact h
  | cons k rest ih => exact ih _ (groupTask_wf s k h)

/-- Store-before-launch invariant: in every prefix of the trace, a launched
task has already been inserted into the registry. -/
def StoreBeforeLaunch (evs : List GroupEvent) : Prop :=
  ∀ t p, p <+: evs → GroupEvent.launch t ∈ p → ∃ k, GroupEvent.insert k t ∈ p

theorem groupTask_sbl (s : GroupState) (key : Nat) (h : StoreBeforeLaunch s.events) :
    StoreBeforeLaunch (groupTask s key).2.events := by
  unfold groupTask
  cases hl : lookupTask s.registry key with
  | some t => exact h
  | none =>
    intro t p hp hm
    have hsplit : p <+: s.events ∨ p = s.events ++ [GroupEvent.insert key s.nextId]
        ∨ p = s.events ++ [GroupEvent.insert key s.nextId, GroupEvent.launch s.nextId] := by
      have : s.events ++ [GroupEvent.insert key s.nextId, GroupEvent.launch s.nextId]
          = (s.events ++ [GroupEvent.insert key s.nextId]) ++ [GroupEvent.launch s.nextId] := by
        simp
      rw [this] at hp
      rcases List.prefix_concat_iff.mp hp with heq | hp2
      · exact Or.inr (Or.inr (by simpa using heq))
      · rcases List.prefix_concat_iff.mp hp2 with heq | hp3
        · exact Or.inr (Or.inl heq)
        · exact Or.inl hp3
    rcases hsplit with hp2 | rfl | rfl
    · exact h t p hp2 hm
    · rcases List.mem_append.mp hm with hm2 | hm2
      · obtain ⟨k, hk⟩ := h t s.events List.prefix_rfl hm2
        exact ⟨k, List.mem_append.mpr (Or.inl hk)⟩
      · simp at hm2
    · rcases List.mem_append.mp hm with hm2 | hm2
      · obtain ⟨k, hk⟩ := h t s.events List.prefix_rfl hm2
        exact ⟨k, List.mem_append.mpr (Or.inl hk)⟩
      · have : t = s.nextId := by
          rcases List.mem_cons.mp hm2 with h3 | h3
          · cases h3
          · simpa using h3
        subst this
        exact ⟨key, List.mem_append.mpr (Or.inr (by simp))⟩

theorem runCalls_sbl (ks : List Nat) (s : GroupState) (h : StoreBeforeLaunch s.events) :
    StoreBeforeLaunch (runCalls s ks).2.events := by
  induction ks generalizing s with
  | nil => exact h
  | cons k rest ih => exact ih _ (groupTask_sbl s k h)

/-- Every call's returned task agrees with the final registry binding for
its key (so any two calls with the same key return the same task). -/
theorem runCalls_returns_binding (ks : List Nat) (s : GroupState) (key : Nat) :
    ∀ p ∈ ks.zip (runCalls s ks).1, p.1 = key →
      some p.2 = lookupTask (runCalls s ks).2.registry key := by
  induction ks generalizing s with
  | nil => simp [runCalls]
  | cons k rest ih =>
    intro p hp hk
    simp only [runCalls, List.zip_cons_cons, List.mem_cons] at hp
    rcases hp with rfl | hp
    · simp only at hk
      subst hk
      exact (runCalls_mono rest _ _ _ (groupTask_lookup_self s _)).symm
    · exact ih _ p hp hk

/-- Claim C1: for any linearized sequence of `taskGroup.Task` calls and any
task-function key, (a) every call with that key returns the identical task
(each agrees with the final registry binding); (b) the key is inserted at
most once and (c) every task's `run()` is launched at most once, so the
function body executes at most once for the lifetime of the group; (d) in
every prefix of the trace a launched task was already stored in the
registry (store-before-launch); (e) the registry never holds two entries
for the same key. -/
theorem C1_group_dedup (ks : List Nat) (key : Nat) :
    (∀ p ∈ ks.zip (runCalls initGroup ks).1, p.1 = key →
        some p.2 = lookupTask (runCalls initGroup ks).2.registry key)
      ∧ insCount (runCalls initGroup ks).2.events key ≤ 1
      ∧ (∀ t, launchCount (runCalls initGroup ks).2.events t ≤ 1)
      ∧ (∀ t p, p <+: (runCalls initGroup ks).2.events →
          GroupEvent.launch t ∈ p → ∃ k, GroupEvent.insert k t ∈ p)
      ∧ ((runCalls initGroup ks).2.registry.map Prod.fst).Nodup := by
  have hwf := runCalls_wf ks initGroup initGroup_wf
  have hsbl := runCalls_sbl ks initGroup (by intro t p hp hm; simp [initGroup] at hp; subst hp; simp at hm)
  exact ⟨runCalls_returns_binding ks initGroup key, hwf.2.1 key, hwf.2.2.1, hsbl,
    hwf.2.2.2.2⟩

/-- Witness for C1 at the concrete call sequence `[5, 7, 5]` and key `5`:
the first and third calls both return task `0`, which is the final registry
binding for key `5`, and the trace launches task `0` only after inserting
it. -/
theorem C1_group_dedup_witness :
    ((5, 0) ∈ [5, 7, 5].zip (runCalls initGroup [5, 7, 5]).1
        ∧ some 0 = lookupTask (runCalls initGroup [5, 7, 5]).2.registry 5)
      ∧ (GroupEvent.launch 0 ∈ (runCalls initGroup [5, 7, 5]).2.events
        ∧ ∃ k, GroupEvent.insert k 0 ∈ (runCalls initGroup [5, 7, 5]).2.events) := by
  refine ⟨⟨by decide, (C1_group_dedup [5, 7, 5] 5).1 (5, 0) (by decide) rfl⟩, by decide, ?_⟩
  exact (C1_group_dedup [5, 7, 5] 5).2.2.2.1 0 (runCalls initGroup [5, 7, 5]).2.events
    List.prefix_rfl (by decide)

/-! ## The waitGroup slices: `add` / `remove`

`waitGroup` keeps two parallel slices: the watched tasks and the
`reflect.SelectCase` receive cases built from their `Done()` channels.
A task is abstracted to the identity of its completion channel; `remove`
is the `copy`-and-truncate idiom, which deletes the entry at the index
(`List.eraseIdx`) from both slices and returns the removed task. -/

/-- A task as the waitGroup sees it: the identity of its `Done()` channel. -/
structure GTaskT : Type where
  doneCh : Nat
deriving DecidableEq, Inhabited

/-- Model of `reflect.SelectCase`: direction and watched channel. -/
structure SelectCase : Type where
  isRecv : Bool
  ch : Nat
deriving DecidableEq, Inhabited

/-- The receive case `waitGroup.add` builds from a task's `Done()` channel. -/
def caseOf (t : GTaskT) : SelectCase := ⟨true, t.doneCh⟩

/-- The two parallel slices of a `waitGroup`. -/
structure WaitGroupS : Type where
  tasks : List GTaskT
  cases : List SelectCase
deriving DecidableEq

/-- `makeWaitGroup`: empty slices (capacity is irrelevant to the model). -/
def makeWaitGroupS : WaitGroupS := ⟨[], []⟩

/-- `waitGroup.add`: append the task and its receive case. -/
def wgAdd (wg : WaitGroupS) (t : GTaskT) : WaitGroupS :=
  ⟨wg.tasks ++ [t], wg.cases ++ [caseOf t]⟩

/-- `waitGroup.remove`: return the task at the index and delete the entry at
that index from both slices (the `copy` + reslice idiom). -/
def wgRemove (wg : WaitGroupS) (i : Nat) : GTaskT × WaitGroupS :=
  (wg.tasks.getD i default, ⟨wg.tasks.eraseIdx i, wg.cases.eraseIdx i⟩)

/-- Any interleaving of `add` and `remove` calls on a waitGroup. -/
inductive WGOp : Type where
  | push : GTaskT → WGOp
  | pull : Nat → WGOp
deriving DecidableEq

/-- Apply one `add` (`push`) or `remove` (`pull`) call. -/
def applyOp (wg : WaitGroupS) : WGOp → WaitGroupS
  | .push t => wgAdd wg t
  | .pull i => (wgRemove wg i).2

/-- Apply a sequence of `add`/`remove` calls. -/
def applyOps (wg : WaitGroupS) (ops : List WGOp) : WaitGroupS :=
  ops.foldl applyOp wg

theorem eraseIdx_map {α β : Type} (f : α → β) (l : List α) (i : Nat) :
    (l.map f).eraseIdx i = (l.eraseIdx i).map f := by
  induction l generalizing i with
  | nil => simp
  | cons x xs ih =>
    cases i with
    | zero => simp
    | succ j => simp [List.eraseIdx, ih]

/-- The parallel-slices invariant is preserved by every operation. -/
theorem applyOp_parallel (wg : WaitGroupS) (op : WGOp)
    (h : wg.cases = wg.tasks.map caseOf) :
    (applyOp wg op).cases = (applyOp wg op).tasks.map caseOf := by
  cases op with
  | push t => simp [applyOp, wgAdd, h]
  | pull i => simp [applyOp, wgRemove, h, eraseIdx_map]

theorem applyOps_parallel (ops : List WGOp) (wg : WaitGroupS)
    (h : wg.cases = wg.tasks.map caseOf) :
    (applyOps wg ops).cases = (applyOps wg ops).tasks.map caseOf := by
  induction ops generalizing wg with
  | nil => exact h
  | cons op rest ih => exact ih _ (applyOp_parallel wg op h)

/-- Claim C10: after any sequence of `add`/`remove` calls from
`makeWaitGroup`, the two slices stay parallel — equal length, and the case
at every index is the receive case built from the task at the same index —
and `remove i` (for a valid index) returns the task at `i` and deletes
exactly the pair at `i`, preserving the relative order of the remaining
pairs (both slices become `take i ++ drop (i+1)`). -/
theorem C10_parallel_slices (ops : List WGOp) :
    ((applyOps makeWaitGroupS ops).cases = (applyOps makeWaitGroupS ops).tasks.map caseOf
      ∧ (applyOps makeWaitGroupS ops).cases.length = (applyOps makeWaitGroupS ops).tasks.length
      ∧ ∀ i, i < (applyOps makeWaitGroupS ops).tasks.length →
          (applyOps makeWaitGroupS ops).cases.getD i default
            = caseOf ((applyOps makeWaitGroupS ops).tasks.getD i default))
      ∧ ∀ (wg : WaitGroupS) (i : Nat), i < wg.tasks.length →
          (wgRemove wg i).1 = wg.tasks.getD i default
            ∧ (wgRemove wg i).2.tasks = wg.tasks.take i ++ wg.tasks.drop (i + 1)
            ∧ (wgRemove wg i).2.cases = wg.cases.take i ++ wg.cases.drop (i + 1) := by
  have hpar := applyOps_parallel ops makeWaitGroupS rfl
  refine ⟨⟨hpar, by rw [hpar]; simp, ?_⟩, ?_⟩
  · intro i hi
    rw [hpar]
    rw [List.getD_eq_getElem _ _ (by simpa using hi), List.getD_eq_getElem _ _ hi]
    simp
  · intro wg i hi
    exact ⟨rfl, by simp [wgRemove, List.eraseIdx_eq_take_drop_succ],
      by simp [wgRemove, List.eraseIdx_eq_take_drop_succ]⟩

/-- Witness for C10 at the concrete call sequence add ⟨3⟩, add ⟨4⟩, remove 0,
and a concrete remove on a two-element waitGroup. -/
theorem C10_parallel_slices_witness :
    ((applyOps makeWaitGroupS [WGOp.push ⟨3⟩, WGOp.push ⟨4⟩, WGOp.pull 0]).cases
        = (applyOps makeWaitGroupS [WGOp.push ⟨3⟩, WGOp.push ⟨4⟩, WGOp.pull 0]).tasks.map caseOf)
      ∧ ((0 : Nat) < (WaitGroupS.mk [⟨3⟩, ⟨4⟩] [caseOf ⟨3⟩, caseOf ⟨4⟩]).tasks.length
        ∧ (wgRemove (WaitGroupS.mk [⟨3⟩, ⟨4⟩] [caseOf ⟨3⟩, caseOf ⟨4⟩]) 0).1 = ⟨3⟩) := by
  refine ⟨(C10_parallel_slices [WGOp.push ⟨3⟩, WGOp.push ⟨4⟩, WGOp.pull 0]).1.1, by decide, ?_⟩
  have h := (C10_parallel_slices []).2 (WaitGroupS.mk [⟨3⟩, ⟨4⟩] [caseOf ⟨3⟩, caseOf ⟨4⟩]) 0
    (by decide)
  exact h.1.trans (by decide)

/-! ## The waitGroup wait loop: `reflect.Select` until empty or an error

A watched task is modelled by the time at which its `Done()` channel closes
(`fires`, `none` meaning it never closes) and the result its `Err()` then
returns.  `reflect.Select` blocks until some remaining channel is closed and
picks it; we realize the schedule by always picking the entry with the
minimal close time (ties broken towards the lower index).  The loop removes
the selected entry, returns its error if non-nil, and otherwise keeps
waiting on the remaining entries; with no entries left it returns nil.
`wgWaitN` returns `none` when the loop blocks forever, and counts the
`reflect.Select` steps taken. -/

/-- A task watched by `waitGroup.wait`: completion time and recorded result. -/
structure WTask : Type where
  fires : Option Nat
  res : Option GoErr
deriving DecidableEq, Inhabited

/-- Index (and close time) of the entry whose channel closes first. -/
def selIdx : List WTask → Option (Nat × Nat)
  | [] => none
  | t :: ts =>
    match t.fires, selIdx ts with
    | none, none => none
    | some tm, none => some (0, tm)
    | none, some it => some (it.1 + 1, it.2)
    | some tm, some it => if tm ≤ it.2 then some (0, tm) else some (it.1 + 1, it.2)

theorem selIdx_lt (ts : List WTask) (i tm : Nat) (h : selIdx ts = some (i, tm)) :
    i < ts.length := by
  induction ts generalizing i tm with
  | nil => cases h
  | cons t rest ih =>
    simp only [selIdx] at h
    cases ht : t.fires with
    | none =>
      rw [ht] at h
      cases hs : selIdx rest with
      | none => rw [hs] at h; cases h
      | some it =>
        rw [hs] at h
        cases h
        simpa using Nat.succ_lt_succ (ih it.1 it.2 hs)
    | some tm2 =>
      rw [ht] at h
      cases hs : selIdx rest with
      | none =>
        rw [hs] at h
        cases h
        simp
      | some it =>
        rw [hs] at h
        dsimp only at h
        by_cases hle : tm2 ≤ it.2
        · rw [if_pos hle] at h
          cases h
          simp
        · rw [if_neg hle] at h
          cases h
          simpa using Nat.succ_lt_succ (ih it.1 it.2 hs)

theorem selIdx_fires (ts : List WTask) (i tm : Nat) (h : selIdx ts = some (i, tm)) :
    (ts.getD i default).fires = some tm := by
  induction ts generalizing i tm with
  | nil => cases h
  | cons t rest ih =>
    simp only [selIdx] at h
    cases ht : t.fires with
    | none =>
      rw [ht] at h
      cases hs : selIdx rest with
      | none => rw [hs] at h; cases h
      | some it =>
        rw [hs] at h
        cases h
        simpa using ih it.1 it.2 hs
    | some tm2 =>
      rw [ht] at h
      cases hs : selIdx rest with
      | none =>
        rw [hs] at h
        cases h
        simpa using ht
      | some it =>
        rw [hs] at h
        dsimp only at h
        by_cases hle : tm2 ≤ it.2
        · rw [if_pos hle] at h
          cases h
          simpa using ht
        · rw [if_neg hle] at h
          cases h
          simpa using ih it.1 it.2 hs

theorem selIdx_none (ts : List WTask) (h : selIdx ts = none) :
    ∀ t ∈ ts, t.fires = none := by
  induction ts with
  | nil => simp
  | cons t rest ih =>
    intro x hx
    simp only [selIdx] at h
    cases ht : t.fires with
    | none =>
      rw [ht] at h
      cases hs : selIdx rest with
      | none =>
        rcases List.mem_cons.mp hx with rfl | hx2
        · exact ht
        · exact ih hs x hx2
      | some it => rw [hs] at h; cases h
    | some tm =>
      rw [ht] at h
      cases hs : selIdx rest with
      | none => rw [hs] at h; cases h
      | some it =>
        rw [hs] at h
        dsimp only at h
        by_cases hle : tm ≤ it.2
        · rw [if_pos hle] at h; cases h
        · rw [if_neg hle] at h; cases h

theorem selIdx_isSome (ts : List WTask) (t : WTask) (ht : t ∈ ts)
    (hf : t.fires.isSome = true) : (selIdx ts).isSome = true := by
  cases hs : selIdx ts with
  | some it => rfl
  | none =>
    have := selIdx_none ts hs t ht
    rw [this] at hf
    cases hf

/-- `waitGroup.wait`: the `reflect.Select` loop.  Returns the loop's result
(`none` when it blocks forever) and the number of select steps taken. -/
def wgWaitN (ts : List WTask) : Option (Option GoErr) × Nat :=
  match h : selIdx ts with
  | none => (if ts.isEmpty then some none else none, 0)
  | some it =>
    match (ts.getD it.1 default).res with
    | some e => (some (some e), 1)
    | none =>
      have hlt : it.1 < ts.length := selIdx_lt ts it.1 it.2 h
      have : (ts.eraseIdx it.1).length < ts.length := by
        rw [List.length_eraseIdx]
        simp only [if_pos hlt]
        omega
      let r := wgWaitN (ts.eraseIdx it.1)
      (r.1, r.2 + 1)
termination_by ts.length

/-- The result of `waitGroup.wait` (`none` when it blocks forever). -/
def wgWait (ts : List WTask) : Option (Option GoErr) := (wgWaitN ts).1

theorem wgWaitN_sel_none (ts : List WTask) (h : selIdx ts = none) :
    wgWaitN ts = (if ts.isEmpty then some none else none, 0) := by
  rw [wgWaitN.eq_def]
  split
  · rfl
  · rename_i it heq
    rw [h] at heq
    cases heq

theorem wgWaitN_sel_err (ts : List WTask) (it : Nat × Nat) (e : GoErr)
    (h : selIdx ts = some it) (hr : (ts.getD it.1 default).res = some e) :
    wgWaitN ts = (some (some e), 1) := by
  rw [wgWaitN.eq_def]
  split
  · rename_i heq
    rw [h] at heq
    cases heq
  · rename_i it2 heq
    rw [h] at heq
    injection heq with h2
    subst h2
    rw [hr]

theorem wgWaitN_sel_step (ts : List WTask) (it : Nat × Nat)
    (h : selIdx ts = some it) (hr : (ts.getD it.1 default).res = none) :
    wgWaitN ts = ((wgWaitN (ts.eraseIdx it.1)).1, (wgWaitN (ts.eraseIdx it.1)).2 + 1) := by
  rw [wgWaitN.eq_def]
  split
  · rename_i heq
    rw [h] at heq
    cases heq
  · rename_i it2 heq
    rw [h] at heq
    injection heq with h2
    subst h2
    rw [hr]

/-- Every element is the one at index `i` or survives `eraseIdx i`. -/
theorem mem_eraseIdx_or {α : Type} [Inhabited α] (l : List α) (i : Nat)
    (t : α) (ht : t ∈ l) : t = l.getD i default ∨ t ∈ l.eraseIdx i := by
  induction l generalizing i with
  | nil => simp at ht
  | cons x xs ih =>
    cases i with
    | zero =>
      rcases List.mem_cons.mp ht with rfl | h2
      · exact Or.inl rfl
      · exact Or.inr (by simpa [List.eraseIdx] using h2)
    | succ j =>
      rcases List.mem_cons.mp ht with rfl | h2
      · exact Or.inr (by simp [List.eraseIdx])
      · rcases ih j h2 with h3 | h3
        · exact Or.inl (by simpa [List.getD] using h3)
        · exact Or.inr (by simp [List.eraseIdx, h3])

/-- If every watched task completes with a nil result, `wait` returns nil. -/
theorem wgWait_all_ok (ts : List WTask) :
    (∀ t ∈ ts, t.fires.isSome = true ∧ t.res = none) → wgWait ts = some none := by
  induction ts using wgWaitN.induct with
  | case1 x hsel =>
    intro h
    cases x with
    | nil => rw [wgWait, wgWaitN_sel_none _ hsel]; rfl
    | cons t rest =>
      have h1 := selIdx_none _ hsel t (by simp)
      have h2 := (h t (by simp)).1
      rw [h1] at h2
      cases h2
  | case2 x it hsel e hres =>
    intro h
    have hm : x.getD it.1 default ∈ x := by
      rw [List.getD_eq_getElem _ _ (selIdx_lt x it.1 it.2 hsel)]
      exact List.getElem_mem _
    have h2 := (h _ hm).2
    rw [h2] at hres
    cases hres
  | case3 x it hsel hres hlt hlen ih =>
    intro h
    rw [wgWait, wgWaitN_sel_step x it hsel hres]
    exact ih fun t ht => h t (List.mem_of_mem_eraseIdx ht)

/-- If `wait` returns nil, every watched task completed with a nil result. -/
theorem wgWait_ok_all (ts : List WTask) :
    wgWait ts = some none → ∀ t ∈ ts, t.fires.isSome = true ∧ t.res = none := by
  induction ts using wgWaitN.induct with
  | case1 x hsel =>
    intro hw t ht
    rw [wgWait, wgWaitN_sel_none _ hsel] at hw
    by_cases he : x.isEmpty
    · rw [List.isEmpty_iff] at he
      subst he
      simp at ht
    · simp only [if_neg he] at hw
      cases hw
  | case2 x it hsel e hres =>
    intro hw
    rw [wgWait, wgWaitN_sel_err x it e hsel hres] at hw
    simp at hw
  | case3 x it hsel hres hlt hlen ih =>
    intro hw t ht
    rw [wgWait, wgWaitN_sel_step x it hsel hres] at hw
    have hall := ih hw
    rcases mem_eraseIdx_or x it.1 t ht with rfl | h2
    · refine ⟨?_, hres⟩
      rw [selIdx_fires x it.1 it.2 hsel]
      rfl
    · exact hall t h2

/-- If some watched task completes with a non-nil result, `wait` terminates
(even if other tasks never complete) and returns a failing task's error. -/
theorem wgWait_fail (ts : List WTask) :
    (∃ t ∈ ts, t.fires.isSome = true ∧ t.res ≠ none) →
      ∃ e, wgWait ts = some (some e) ∧ ∃ t ∈ ts, t.res = some e := by
  induction ts using wgWaitN.induct with
  | case1 x hsel =>
    rintro ⟨t, ht, hf, _⟩
    rw [selIdx_none x hsel t ht] at hf
    cases hf
  | case2 x it hsel e hres =>
    intro _
    refine ⟨e, by rw [wgWait, wgWaitN_sel_err x it e hsel hres], x.getD it.1 default, ?_, hres⟩
    rw [List.getD_eq_getElem _ _ (selIdx_lt x it.1 it.2 hsel)]
    exact List.getElem_mem _
  | case3 x it hsel hres hlt hlen ih =>
    rintro ⟨t, ht, hf, hr⟩
    have htne : t ≠ x.getD it.1 default := by
      intro he
      rw [he, hres] at hr
      exact hr rfl
    have ht2 : t ∈ x.eraseIdx it.1 := by
      rcases mem_eraseIdx_or x it.1 t ht with he | h2
      · exact absurd he htne
      · exact h2
    obtain ⟨e, hw, t2, ht3, hr2⟩ := ih ⟨t, ht2, hf, hr⟩
    exact ⟨e, by rw [wgWait, wgWaitN_sel_step x it hsel hres]; exact hw,
      t2, List.mem_of_mem_eraseIdx ht3, hr2⟩

/-- Each select step removes the resolved entry, so the loop performs at
most one select per registered entry (finished entries are not re-scanned). -/
theorem wgWaitN_steps_le (ts : List WTask) : (wgWaitN ts).2 ≤ ts.length := by
  induction ts using wgWaitN.induct with
  | case1 x hsel => rw [wgWaitN_sel_none _ hsel]; exact Nat.zero_le _
  | case2 x it hsel e hres =>
    rw [wgWaitN_sel_err x it e hsel hres]
    have := selIdx_lt x it.1 it.2 hsel
    simpa using Nat.lt_of_le_of_lt (Nat.zero_le _) this
  | case3 x it hsel hres hlt hlen ih =>
    rw [wgWaitN_sel_step x it hsel hres]
    simp only
    rw [List.length_eraseIdx, if_pos hlt] at ih
    omega

/-- Claim C5: `waitGroup.wait` over any registered set (a) returns nil
immediately with zero entries; (b) returns nil if every registered task
completes with a nil result, and (c) only then; (d) if some registered task
completes with a non-nil result, it terminates — without waiting on the
remaining tasks, which may never complete — returning a failing task's
error; (e) it removes each completed entry as it resolves, taking at most
one select step per registered entry. -/
theorem C5_multi_wait (ts : List WTask) :
    wgWait ([] : List WTask) = some none
      ∧ ((∀ t ∈ ts, t.fires.isSome = true ∧ t.res = none) → wgWait ts = some none)
      ∧ (wgWait ts = some none → ∀ t ∈ ts, t.fires.isSome = true ∧ t.res = none)
      ∧ ((∃ t ∈ ts, t.fires.isSome = true ∧ t.res ≠ none) →
          ∃ e, wgWait ts = some (some e) ∧ ∃ t ∈ ts, t.res = some e)
      ∧ (wgWaitN ts).2 ≤ ts.length :=
  ⟨by rw [wgWait, wgWaitN_sel_none [] rfl]; rfl,
    wgWait_all_ok ts, wgWait_ok_all ts, wgWait_fail ts, wgWaitN_steps_le ts⟩

/-- Witness for C5 on concrete sets: a set whose tasks all complete with nil
results yields a nil wait, and a set with one failing task, one succeeding
task and one task that never completes yields that failing task's error. -/
theorem C5_multi_wait_witness :
    (wgWait [WTask.mk (some 3) none, WTask.mk (some 1) none] = some none)
      ∧ ∃ e, wgWait [WTask.mk (some 2) none, WTask.mk (some 1) (some (GoErr.base "x")),
          WTask.mk none none] = some (some e)
        ∧ ∃ t ∈ [WTask.mk (some 2) none, WTask.mk (some 1) (some (GoErr.base "x")),
            WTask.mk none none], t.res = some e := by
  constructor
  · exact (C5_multi_wait _).2.1 (by decide)
  · exact (C5_multi_wait _).2.2.2.1 (by decide)

/-! ## Composition helpers: `Opt`, `Ser`, `Par`

`Wait(task, fun)` resolves `fun` through the group's deduplicating
`Task(...)` lookup and blocks on the resulting task's `Done()` channel,
then returns its `Err()`.  Because the group runs exactly one task per
function identity (claim C1), each function has a single fixed outcome
within a group, modelled by an environment from function keys to outcomes.
`directWait` is `Wait`: `none` when the task never completes, otherwise the
task's recorded result. -/

/-- Outcome of the unique task of a function within a group: when (if ever)
its `Done()` channel closes, and its recorded result. -/
structure TaskOutcome : Type where
  fires : Option Nat
  res : Option GoErr
deriving DecidableEq

/-- Assignment of each task function (by identity key) to the outcome of
its deduplicated task within the group. -/
def Env : Type := Nat → TaskOutcome

/-- `Wait(task, fun)`: blocks on the function's task; `none` when that task
never completes, otherwise its recorded result. -/
def directWait (env : Env) (f : Nat) : Option (Option GoErr) :=
  match (env f).fires with
  | none => none
  | some _ => some (env f).res

/-- The watched-task view `waitGroup.add` gets from `task.Task(fun)`. -/
def toWTask (o : TaskOutcome) : WTask := ⟨o.fires, o.res⟩

/-- The task function built by `Par`: with no arguments return nil; with one
argument delegate to a direct wait; otherwise watch every argument's task
with a waitGroup and run its wait loop. -/
def parF (env : Env) (funs : List Nat) : Option (Option GoErr) :=
  match funs with
  | [] => some none
  | [f] => directWait env f
  | fs => wgWait (fs.map fun f => toWTask (env f))

/-- The task function built by `Ser`: wait on each argument's task in the
order given, return the first non-nil error, nil if all waits yield nil. -/
def serF (env : Env) : List Nat → Option (Option GoErr)
  | [] => some none
  | f :: rest =>
    match directWait env f with
    | none => none
    | some (some e) => some (some e)
    | some none => serF env rest

/-- `Log`: the errors written to the log sink by one `Log(err)` call. -/
def logCalls (e : Option GoErr) : List GoErr :=
  match e with
  | some err => [err]
  | none => []

/-- The task function built by `Opt`: wait on the wrapped function's task,
log the wait's outcome, and return nil.  The value is `none` when the
wrapped task never completes (the wrapper blocks), otherwise the returned
error together with the list of logged errors. -/
def optF (env : Env) (f : Nat) : Option (Option GoErr × List GoErr) :=
  match directWait env f with
  | none => none
  | some r => some (none, logCalls r)

/-- Claim C6: `Par()` yields a task function that returns nil regardless of
the group (it touches no task), and `Par(X)` is behaviorally equivalent to
a direct wait on `X`'s task for every outcome of `X`; moreover the
single-entry shortcut is only an optimization — the general waitGroup path
on the one-element set computes the same value as the direct wait. -/
theorem C6_par_zero_one (env : Env) (f : Nat) :
    (∀ env2 : Env, parF env2 [] = some none)
      ∧ parF env [f] = directWait env f
      ∧ wgWait [toWTask (env f)] = directWait env f := by
  refine ⟨fun env2 => rfl, rfl, ?_⟩
  cases hf : (env f).fires with
  | none =>
    rw [wgWait, wgWaitN_sel_none _ (by simp [selIdx, toWTask, hf])]
    simp [directWait, hf]
  | some tm =>
    cases hr : (env f).res with
    | none =>
      rw [wgWait, wgWaitN_sel_step [toWTask (env f)] (0, tm)
        (by simp [selIdx, toWTask, hf]) (by simp [toWTask, hr])]
      show (wgWaitN ([] : List WTask)).1 = directWait env f
      rw [wgWaitN_sel_none ([] : List WTask) rfl]
      simp [directWait, hf, hr]
    | some e =>
      rw [wgWait, wgWaitN_sel_err [toWTask (env f)] (0, tm) e
        (by simp [selIdx, toWTask, hf]) (by simp [toWTask, hr])]
      simp [directWait, hf, hr]

/-- Claim C7: the task function built by `Ser` waits on its arguments'
(deduplicated) tasks in the order given: if every function in a leading
segment completes with nil and the next one completes with error `e`, it
returns `e` no matter what the later functions do (they are never waited
on, and may even block forever); if every function completes with nil it
returns nil. -/
theorem C7_serial (env : Env) (pre post : List Nat) (f : Nat) (e : GoErr) :
    ((∀ g ∈ pre, directWait env g = some none) → directWait env f = some (some e) →
        serF env (pre ++ f :: post) = some (some e))
      ∧ ((∀ g ∈ pre, directWait env g = some none) → serF env pre = some none) := by
  constructor
  · intro hpre hf
    induction pre with
    | nil => simp [serF, hf]
    | cons g rest ih =>
      have hg := hpre g (by simp)
      simp only [List.cons_append, serF, hg]
      exact ih fun g2 hg2 => hpre g2 (List.mem_cons_of_mem g hg2)
  · intro hpre
    induction pre with
    | nil => rfl
    | cons g rest ih =>
      have hg := hpre g (by simp)
      simp only [serF, hg]
      exact ih fun g2 hg2 => hpre g2 (List.mem_cons_of_mem g hg2)

/-- Concrete environment for the C7 witness: function 0 completes with nil,
function 1 fails with `boom`, function 2 never completes. -/
def serEnvW : Env := fun f =>
  if f = 0 then ⟨some 0, none⟩
  else if f = 1 then ⟨some 1, some (GoErr.base "boom")⟩
  else ⟨none, none⟩

/-- Witness for C7 with three concrete functions: the first completes with
nil, the second fails with `boom`, the third never completes; the serial
chain returns `boom`. -/
theorem C7_serial_witness :
    ((∀ g ∈ [0], directWait serEnvW g = some none)
        ∧ directWait serEnvW 1 = some (some (GoErr.base "boom")))
      ∧ serF serEnvW ([0] ++ 1 :: [2]) = some (some (GoErr.base "boom")) :=
  ⟨⟨by decide, by decide⟩,
    (C7_serial serEnvW [0] [2] 1 (GoErr.base "boom")).1 (by decide) (by decide)⟩

/-- Claim C8: the task function built by `Opt` returns nil to its own
caller whenever the wrapped function's task completes, regardless of the
outcome; the outcome is only logged (logged exactly when non-nil); and the
wrapped task's own recorded result is untouched — a direct wait on the same
function elsewhere in the group still observes the real result. -/
theorem C8_optional (env : Env) (f : Nat) (h : (env f).fires.isSome = true) :
    optF env f = some (none, logCalls ((env f).res))
      ∧ directWait env f = some ((env f).res)
      ∧ ∀ e, (env f).res = some e → logCalls ((env f).res) = [e] := by
  obtain ⟨tm, htm⟩ := Option.isSome_iff_exists.mp h
  refine ⟨?_, ?_, ?_⟩
  · rw [optF, directWait, htm]
  · rw [directWait, htm]
  · intro e he
    rw [he]
    rfl

/-- Concrete environment for the C8 witness: function 0 fails with `boom`. -/
def optEnvW : Env := fun _ => ⟨some 0, some (GoErr.base "boom")⟩

/-- Witness for C8 at a concrete environment whose function 0 fails with
`boom`: the optional wrapper returns nil and logs the failure, while the
direct wait observes the real error. -/
theorem C8_optional_witness :
    (optEnvW 0).fires.isSome = true
      ∧ optF optEnvW 0 = some (none, logCalls ((optEnvW 0).res))
      ∧ directWait optEnvW 0 = some ((optEnvW 0).res) :=
  ⟨by decide, (C8_optional optEnvW 0 (by decide)).1, (C8_optional optEnvW 0 (by decide)).2.1⟩

/-! ## Task-function naming, `taskFuncs`, `dedup`, `Choose`

A `TaskFunc` is identified by its `id()` (pointer identity) and carries the
`runtime` long name of the underlying function; `ShortName` strips the
package path (everything up to the last dot).  A Go nil `TaskFunc` is
`none`.  Case-insensitive matching (`strings.EqualFold`) is modelled by
comparison after per-character lowercasing, and `%#v` of a function value
by its long name. -/

/-- A (non-nil) task function value: pointer identity and runtime name. -/
structure TaskFuncV : Type where
  fid : Nat
  longName : String
deriving DecidableEq

/-- `funcShortName`: the segment after the last `.`, or the whole name when
there is no dot. -/
def afterLastDot (cs : List Char) : List Char :=
  (cs.reverse.takeWhile fun c => !(c == '.')).reverse

/-- `TaskFunc.ShortName`: the function name without the package path. -/
def TaskFuncV.shortName (f : TaskFuncV) : String :=
  String.mk (afterLastDot f.longName.toList)

/-- `strings.EqualFold`, modelled as equality after lowercasing. -/
def eqFold (a b : String) : Bool :=
  a.toList.map Char.toLower == b.toList.map Char.toLower

/-- `TaskFunc.equalTaskName`: case-insensitive match against the short name. -/
def TaskFuncV.equalTaskName (f : TaskFuncV) (n : String) : Bool := eqFold n f.shortName

/-- `TaskFunc.equalTask`: same identity, or same short name. -/
def TaskFuncV.equalTask (f other : TaskFuncV) : Bool :=
  f.fid == other.fid || f.equalTaskName other.shortName

/-- `taskFuncs.byTaskName`: first candidate matching case-insensitively. -/
def byTaskName : List TaskFuncV → String → Option TaskFuncV
  | [], _ => none
  | f :: rest, n => if f.equalTaskName n then some f else byTaskName rest n

/-- `taskFuncs.hasTaskName`. -/
def hasTaskName (self : List TaskFuncV) (n : String) : Bool := (byTaskName self n).isSome

/-- `taskFuncs.hasTask`. -/
def hasTask (self : List TaskFuncV) (v : TaskFuncV) : Bool :=
  self.any fun f => f.equalTask v

/-- `taskFuncs.shortNames`. -/
def shortNames (self : List TaskFuncV) : List String := self.map TaskFuncV.shortName

/-- Go `%q` rendering of a string slice: space-separated quoted names. -/
def quotedJoin : List String → String
  | [] => ""
  | [n] => goQuote n
  | n :: rest => goQuote n ++ " " ++ quotedJoin rest

/-- Go `%q` rendering of a string slice, brackets included. -/
def quotedList (l : List String) : String := "[" ++ quotedJoin l ++ "]"

/-- Error for a nil candidate in `taskFuncs.add`. -/
def addErrNil : GoErr := .base "unexpected nil task function"

/-- Error for a candidate whose short name is empty (`%#v` rendered as the
long name). -/
def addErrUnnamed (f : TaskFuncV) : GoErr :=
  .base ("unexpected unnamed task function " ++ f.longName)

/-- Error for a candidate duplicating an already-registered short name. -/
def addErrDupName (n : String) : GoErr :=
  .base ("unexpected task function with duplicate name " ++ goQuote n)

/-- Error for a candidate duplicating an already-registered function. -/
def addErrDupFunc (f : TaskFuncV) : GoErr :=
  .base ("unexpected duplicate task function " ++ goQuote f.longName)

/-- `taskFuncs.add`: validate (non-nil, named, no duplicate name, no
duplicate function) and append. -/
def addF (self : List TaskFuncV) (v : Option TaskFuncV) :
    Except GoErr (List TaskFuncV) :=
  match v with
  | none => .error addErrNil
  | some f =>
    if f.shortName == "" then .error (addErrUnnamed f)
    else if hasTaskName self f.shortName then .error (addErrDupName f.shortName)
    else if hasTask self f then .error (addErrDupFunc f)
    else .ok (self ++ [f])

/-- Loop body of `dedup`: fold the candidates through `taskFuncs.add`. -/
def dedupGo (acc : List TaskFuncV) : List (Option TaskFuncV) →
    Except GoErr (List TaskFuncV)
  | [] => .ok acc
  | v :: rest =>
    match addF acc v with
    | .error e => .error e
    | .ok acc2 => dedupGo acc2 rest

/-- `dedup`: validate and collect the candidate set. -/
def dedup (funs : List (Option TaskFuncV)) : Except GoErr (List TaskFuncV) :=
  dedupGo [] funs

/-- The `unknown task` error, enumerating the known short names. -/
def unknownErr (n : String) (known : List TaskFuncV) : GoErr :=
  .base ("unknown task " ++ goQuote n ++ "; known tasks (case-insensitive): "
    ++ quotedList (shortNames known))

/-- The `no task specified` error, enumerating the known short names. -/
def noTaskErr (known : List TaskFuncV) : GoErr :=
  .base ("no task specified, please choose one; known tasks (case-insensitive): "
    ++ quotedList (shortNames known))

/-- The `too many tasks` error, enumerating the chosen short names. -/
def tooManyErr (chosen : List TaskFuncV) : GoErr :=
  .base ("too many tasks specified, please choose one (case-insensitive): "
    ++ quotedList (shortNames chosen))

/-- The name-resolution loop of `Choose`: resolve each name against the
known set and accumulate the chosen functions through `taskFuncs.add`. -/
def chooseLoop (known : List TaskFuncV) (acc : List TaskFuncV) :
    List String → Except GoErr (List TaskFuncV)
  | [] => .ok acc
  | n :: ns =>
    match byTaskName known n with
    | none => .error (unknownErr n known)
    | some f =>
      match addF acc (some f) with
      | .error e => .error e
      | .ok acc2 => chooseLoop known acc2 ns

/-- `Choose`: dedup the candidates, resolve every name, and require exactly
one chosen function. -/
def Choose (names : List String) (funs : List (Option TaskFuncV)) :
    Except GoErr TaskFuncV :=
  match dedup funs with
  | .error e => .error e
  | .ok known =>
    match chooseLoop known [] names with
    | .error e => .error e
    | .ok chosen =>
      match chosen with
      | [] => .error (noTaskErr known)
      | [f] => .ok f
      | _ => .error (tooManyErr chosen)

instance {ε α : Type} [DecidableEq ε] [DecidableEq α] : DecidableEq (Except ε α)
  | Except.error x, Except.error y =>
    if h : x = y then Decidable.isTrue (by rw [h])
    else Decidable.isFalse fun hc => h (by injection hc)
  | Except.error _, Except.ok _ => Decidable.isFalse fun hc => by injection hc
  | Except.ok _, Except.error _ => Decidable.isFalse fun hc => by injection hc
  | Except.ok x, Except.ok y =>
    if h : x = y then Decidable.isTrue (by rw [h])
    else Decidable.isFalse fun hc => h (by injection hc)

theorem strToList_append (s t : String) : (s ++ t).toList = s.toList ++ t.toList := rfl

theorem strContains_of_decomp (hay pat : String) (a b : List Char)
    (h : hay.toList = a ++ pat.toList ++ b) : strContains hay pat = true := by
  rw [strContains, containsSeg_iff]
  exact ⟨a, b, h⟩

/-- Containment survives prepending to the haystack. -/
theorem strContains_left_extend (x inner pat : String)
    (h : strContains inner pat = true) : strContains (x ++ inner) pat = true := by
  rw [strContains, containsSeg_iff] at h ⊢
  obtain ⟨a, b, hab⟩ := h
  refine ⟨x.toList ++ a, b, ?_⟩
  rw [strToList_append, hab]
  simp [List.append_assoc]

/-- A member of the name list occurs inside its `%q` slice rendering. -/
theorem quotedJoin_toList (l : List String) (n : String) (h : n ∈ l) :
    ∃ a b, (quotedJoin l).toList = a ++ n.toList ++ b := by
  induction l with
  | nil => simp at h
  | cons x xs ih =>
    rcases List.mem_cons.mp h with rfl | h2
    · cases xs with
      | nil =>
        refine ⟨"\"".toList, "\"".toList, ?_⟩
        show (("\"" ++ n) ++ "\"").toList = _
        simp [strToList_append, List.append_assoc]
      | cons y ys =>
        refine ⟨"\"".toList, "\"".toList ++ " ".toList ++ (quotedJoin (y :: ys)).toList, ?_⟩
        show (((("\"" ++ n) ++ "\"") ++ " ") ++ quotedJoin (y :: ys)).toList = _
        simp [strToList_append, List.append_assoc]
    · cases xs with
      | nil => simp at h2
      | cons y ys =>
        obtain ⟨a, b, hab⟩ := ih h2
        refine ⟨(goQuote x ++ " ").toList ++ a, b, ?_⟩
        show ((goQuote x ++ " ") ++ quotedJoin (y :: ys)).toList = _
        rw [strToList_append, hab]
        simp [List.append_assoc]

theorem quotedList_contains (l : List String) (n : String) (h : n ∈ l) :
    strContains (quotedList l) n = true := by
  obtain ⟨a, b, hab⟩ := quotedJoin_toList l n h
  apply strContains_of_decomp _ _ ("[".toList ++ a) (b ++ "]".toList)
  show (("[" ++ quotedJoin l) ++ "]").toList = _
  rw [strToList_append, strToList_append, hab]
  simp [List.append_assoc]

theorem unknownErr_contains (n : String) (known : List TaskFuncV) (nm : String)
    (h : nm ∈ shortNames known) :
    strContains (GoErr.msg (unknownErr n known)) nm = true := by
  show strContains ((("unknown task " ++ goQuote n) ++ "; known tasks (case-insensitive): ")
    ++ quotedList (shortNames known)) nm = true
  exact strContains_left_extend _ _ _ (quotedList_contains _ nm h)

theorem noTaskErr_contains (known : List TaskFuncV) (nm : String)
    (h : nm ∈ shortNames known) :
    strContains (GoErr.msg (noTaskErr known)) nm = true := by
  show strContains ("no task specified, please choose one; known tasks (case-insensitive): "
    ++ quotedList (shortNames known)) nm = true
  exact strContains_left_extend _ _ _ (quotedList_contains _ nm h)

theorem tooManyErr_contains (chosen : List TaskFuncV) (nm : String)
    (h : nm ∈ shortNames chosen) :
    strContains (GoErr.msg (tooManyErr chosen)) nm = true := by
  show strContains ("too many tasks specified, please choose one (case-insensitive): "
    ++ quotedList (shortNames chosen)) nm = true
  exact strContains_left_extend _ _ _ (quotedList_contains _ nm h)

/-- A successful `taskFuncs.add` appends exactly the validated function. -/
theorem addF_ok (acc : List TaskFuncV) (v : Option TaskFuncV) (out : List TaskFuncV)
    (h : addF acc v = Except.ok out) :
    ∃ f, v = some f ∧ out = acc ++ [f] ∧ (f.shortName == "") = false := by
  cases v with
  | none => exact Except.noConfusion h
  | some f =>
    simp only [addF] at h
    split_ifs at h with h1 h2 h3
    all_goals
      first
        | exact Except.noConfusion h
        | (injection h with h4; exact ⟨f, rfl, h4.symm, by simpa using h1⟩)

/-- Each successfully resolved name adds exactly one chosen function. -/
theorem chooseLoop_ok_len (known : List TaskFuncV) (ns : List String)
    (acc out : List TaskFuncV) (h : chooseLoop known acc ns = Except.ok out) :
    out.length = acc.length + ns.length := by
  induction ns generalizing acc with
  | nil =>
    injection h with h2
    simp [h2]
  | cons n rest ih =>
    simp only [chooseLoop] at h
    cases hb : byTaskName known n with
    | none => rw [hb] at h; exact Except.noConfusion h
    | some f =>
      rw [hb] at h
      dsimp only at h
      cases ha : addF acc (some f) with
      | error e => rw [ha] at h; exact Except.noConfusion h
      | ok acc2 =>
        rw [ha] at h
        dsimp only at h
        obtain ⟨f2, _, rfl, _⟩ := addF_ok acc (some f) acc2 ha
        have := ih _ h
        simp only [List.length_append, List.length_cons, List.length_nil] at this ⊢
        omega

/-- Every function in a validated candidate set has a non-empty short name. -/
theorem dedupGo_names (l : List (Option TaskFuncV)) (acc out : List TaskFuncV)
    (h : dedupGo acc l = Except.ok out)
    (hacc : ∀ f ∈ acc, (f.shortName == "") = false) :
    ∀ f ∈ out, (f.shortName == "") = false := by
  induction l generalizing acc with
  | nil =>
    injection h with h2
    subst h2
    exact hacc
  | cons v rest ih =>
    simp only [dedupGo] at h
    cases ha : addF acc v with
    | error e => rw [ha] at h; exact Except.noConfusion h
    | ok acc2 =>
      rw [ha] at h
      dsimp only at h
      obtain ⟨f2, _, rfl, hne⟩ := addF_ok acc v acc2 ha
      refine ih _ h ?_
      intro f hf
      rcases List.mem_append.mp hf with hf2 | hf2
      · exact hacc f hf2
      · rw [List.mem_singleton.mp hf2]
        exact hne

theorem byTaskName_mem (l : List TaskFuncV) (n : String) (f : TaskFuncV)
    (h : byTaskName l n = some f) : f ∈ l := by
  induction l with
  | nil => cases h
  | cons x xs ih =>
    simp only [byTaskName] at h
    split_ifs at h
    · injection h with h2
      rw [h2]
      simp
    · exact List.mem_cons_of_mem x (ih h)

/-- A successful `Choose` forces a clean candidate set and exactly one
given name, resolving to a known function. -/
theorem choose_ok_forward (names : List String) (cands : List (Option TaskFuncV))
    (f : TaskFuncV) (hf : Choose names cands = Except.ok f) :
    ∃ known, dedup cands = Except.ok known
      ∧ ∃ n, names = [n] ∧ (byTaskName known n).isSome = true := by
  rw [Choose] at hf
  cases hd : dedup cands with
  | error e => rw [hd] at hf; exact Except.noConfusion hf
  | ok known =>
    rw [hd] at hf
    dsimp only at hf
    cases hc : chooseLoop known [] names with
    | error e => rw [hc] at hf; exact Except.noConfusion hf
    | ok chosen =>
      rw [hc] at hf
      dsimp only at hf
      refine ⟨known, rfl, ?_⟩
      cases chosen with
      | nil => exact Except.noConfusion hf
      | cons g gs =>
        cases gs with
        | nil =>
          have hlen := chooseLoop_ok_len known names [] [g] hc
          simp only [List.length_singleton, List.length_nil] at hlen
          cases names with
          | nil => simp at hlen
          | cons n ns =>
            cases ns with
            | nil =>
              refine ⟨n, rfl, ?_⟩
              simp only [chooseLoop] at hc
              cases hb : byTaskName known n with
              | none => rw [hb] at hc; exact Except.noConfusion hc
              | some f2 => rfl
            | cons n2 ns2 => simp at hlen
        | cons g2 gs2 => exact Except.noConfusion hf

/-- With a clean candidate set and one known name, `Choose` succeeds. -/
theorem choose_ok_backward (cands : List (Option TaskFuncV)) (known : List TaskFuncV)
    (n : String) (hd : dedup cands = Except.ok known)
    (hb : (byTaskName known n).isSome = true) :
    ∃ f, Choose [n] cands = Except.ok f := by
  obtain ⟨f, hf⟩ := Option.isSome_iff_exists.mp hb
  have hmem := byTaskName_mem known n f hf
  have hname : (f.shortName == "") = false :=
    dedupGo_names cands [] known hd (by simp) f hmem
  have hadd : addF ([] : List TaskFuncV) (some f) = Except.ok [f] := by
    simp [addF, hname, hasTaskName, byTaskName, hasTask]
  refine ⟨f, ?_⟩
  rw [Choose, hd]
  dsimp only
  simp only [chooseLoop, hf, hadd]

/-- Claim C9 (amended): `Choose` returns a task function exactly when the
candidate set validates (no nil, unnamed, or duplicate entries) and exactly
one name is given, matching a candidate's short name case-insensitively; in
every other case it returns an error.  The unknown-name and
no-task-specified errors enumerate all known task names; the
too-many-tasks error enumerates the chosen names (the unchosen known names
are omitted — see the counterexample); registration errors describe the
offending entry. -/
theorem C9_choose_selection (names : List String) (cands : List (Option TaskFuncV)) :
    ((∃ f, Choose names cands = Except.ok f)
        ↔ ∃ known, dedup cands = Except.ok known
            ∧ ∃ n, names = [n] ∧ (byTaskName known n).isSome = true)
      ∧ (∀ known, dedup cands = Except.ok known → names = [] →
          Choose names cands = Except.error (noTaskErr known)
            ∧ ∀ nm ∈ shortNames known, strContains (GoErr.msg (noTaskErr known)) nm = true)
      ∧ (∀ known n ns, dedup cands = Except.ok known → names = n :: ns →
          byTaskName known n = none →
          Choose names cands = Except.error (unknownErr n known)
            ∧ ∀ nm ∈ shortNames known, strContains (GoErr.msg (unknownErr n known)) nm = true)
      ∧ ∀ chosen : List TaskFuncV, ∀ nm ∈ shortNames chosen,
          strContains (GoErr.msg (tooManyErr chosen)) nm = true := by
  refine ⟨⟨?_, ?_⟩, ?_, ?_, ?_⟩
  · rintro ⟨f, hf⟩
    exact choose_ok_forward names cands f hf
  · rintro ⟨known, hd, n, rfl, hb⟩
    exact choose_ok_backward cands known n hd hb
  · rintro known hd rfl
    refine ⟨?_, fun nm hnm => noTaskErr_contains known nm hnm⟩
    rw [Choose, hd]
    rfl
  · rintro known n ns hd rfl hb
    refine ⟨?_, fun nm hnm => unknownErr_contains n known nm hnm⟩
    rw [Choose, hd]
    dsimp only
    simp only [chooseLoop, hb]
  · exact fun chosen nm hnm => tooManyErr_contains chosen nm hnm

/-- Concrete candidate functions for the C9 counterexample and witness. -/
def alphaV : TaskFuncV := ⟨1, "pkg.Alpha"⟩

/-- Second concrete candidate. -/
def betaV : TaskFuncV := ⟨2, "pkg.Beta"⟩

/-- Third concrete candidate. -/
def zetaV : TaskFuncV := ⟨3, "pkg.Zeta"⟩

/-- The error component of a `Choose` result. -/
def errOf : Except GoErr TaskFuncV → Option GoErr
  | .error e => some e
  | .ok _ => none

/-- Claim C9, counterexample to "its errors enumerate the known task
names": choosing two names out of three known candidates yields the
too-many-tasks error, which lists only the chosen names `Alpha` and `Beta`
and does not mention the known task name `Zeta`. -/
theorem C9_choose_counterexample :
    errOf (Choose ["alpha", "beta"] [some alphaV, some betaV, some zetaV])
        = some (tooManyErr [alphaV, betaV])
      ∧ strContains (GoErr.msg (tooManyErr [alphaV, betaV])) "Zeta" = false
      ∧ "Zeta" ∈ shortNames [alphaV, betaV, zetaV] := by
  refine ⟨by decide, by decide, by decide⟩

/-- Witness for C9 on a concrete unknown-name call: with the single
candidate `Alpha` and the unknown name `nope`, `Choose` returns the
unknown-task error, whose message lists the known name `Alpha`. -/
theorem C9_choose_selection_witness :
    (dedup [some alphaV] = Except.ok [alphaV]
        ∧ byTaskName [alphaV] "nope" = none
        ∧ "Alpha" ∈ shortNames [alphaV])
      ∧ Choose ["nope"] [some alphaV] = Except.error (unknownErr "nope" [alphaV])
      ∧ strContains (GoErr.msg (unknownErr "nope" [alphaV])) "Alpha" = true := by
  have h := (C9_choose_selection ["nope"] [some alphaV]).2.2.1 [alphaV] "nope" []
    (by decide) rfl (by decide)
  exact ⟨⟨by decide, by decide, by decide⟩, h.1, h.2 "Alpha" (by decide)⟩
